import Mathlib

/-!
Verification of the stash backup tool (Go) against its specification.

Shallow embedding conventions:
* Go strings are modelled as `List Char` (`Str`); `strings.Split`, `strings.Join`,
  `strings.HasPrefix`, `strings.HasSuffix`, `strings.TrimPrefix` and `strings.TrimSuffix`
  are modelled by `List.splitOn`, `List.intercalate` and the `go*` helpers below.
* `time.Time` values are modelled as `Int` instants (seconds since the Unix epoch, UTC).
  `time.Parse` of the two fixed layouts is modelled by `parseTimestamp15` / `parseDate8`
  (full digit and calendar validation, as the Go parser performs) followed by `dtInstant`.
  Equality of `Format("20060102-150405")` strings of two instants is instant equality;
  equality of `Format("20060102")` strings is equality of the floored UTC day (`dayOf`),
  and `Before` / `After` are `<` on instants.
* `sort.Slice` with a strict date comparator is modelled by `List.insertionSort` with the
  corresponding non-strict total relation; Go map iteration during grouping is modelled by
  first-appearance key order (the selector output is fully sorted afterwards, and the
  claims under study quantify over records with pairwise distinct dates, where the result
  is independent of both choices).
* Functions performing no observable branching on the outside world are translated
  directly; effectful orchestration (`backupPath`) is translated as a function of an
  explicit environment recording the success of each external step.
-/

/-- Go strings, as lists of characters. -/
abbrev Str := List Char

/-- Model of strings.HasSuffix. -/
def goEndsWith (s pat : Str) : Bool :=
  pat.isSuffixOf s

/-- Model of strings.TrimPrefix: drops pat from the front when present, else returns s. -/
def goTrimLeading (s pat : Str) : Str :=
  if pat.isPrefixOf s then s.drop pat.length else s

/-- Model of strings.TrimSuffix: drops pat from the end when present, else returns s. -/
def goTrimTrailing (s pat : Str) : Str :=
  if pat.isSuffixOf s then s.take (s.length - pat.length) else s

/-- A parsed calendar timestamp, second resolution (model of the wall-clock fields that
the fixed layouts 20060102-150405 and 20060102 of time.Parse produce). -/
structure DateTime where
  year : Nat
  month : Nat
  day : Nat
  hour : Nat
  minute : Nat
  second : Nat
deriving DecidableEq, Repr

/-- Reads a nonempty all-digit string as a decimal number, as the fixed numeric fields of
Go time.Parse do; any non-digit yields a parse error (none). -/
def digitsToNat (s : Str) : Option Nat :=
  if s ≠ [] ∧ s.all Char.isDigit then
    some (s.foldl (fun a c => a * 10 + (c.toNat - 48)) 0)
  else none

/-- Gregorian leap-year rule, as implemented by the Go time package. -/
def isLeapYear (y : Nat) : Bool :=
  y % 4 = 0 && (y % 100 ≠ 0 || y % 400 = 0)

/-- Number of days in a month, as validated by Go time.Parse (day out of range). -/
def daysInMonth (y m : Nat) : Nat :=
  if m = 2 then (if isLeapYear y then 29 else 28)
  else if m = 4 ∨ m = 6 ∨ m = 9 ∨ m = 11 then 30 else 31

/-- Range checks Go time.Parse performs on the parsed fields. -/
def validClockDate (y mo d h mi s : Nat) : Bool :=
  decide (1 ≤ mo ∧ mo ≤ 12 ∧ 1 ≤ d ∧ d ≤ daysInMonth y mo ∧ h ≤ 23 ∧ mi ≤ 59 ∧ s ≤ 59)

/-- Model of Go time.Parse with layout 20060102-150405: exactly 15 characters, the
separator at index 8, six all-digit fields, and calendar validation. -/
def parseTimestamp15 (s : Str) : Option DateTime :=
  if s.length = 15 ∧ s[8]? = some '-' then
    match digitsToNat (s.take 4), digitsToNat ((s.drop 4).take 2),
        digitsToNat ((s.drop 6).take 2), digitsToNat ((s.drop 9).take 2),
        digitsToNat ((s.drop 11).take 2), digitsToNat ((s.drop 13).take 2) with
    | some y, some mo, some d, some h, some mi, some sec =>
        if validClockDate y mo d h mi sec then some ⟨y, mo, d, h, mi, sec⟩ else none
    | _, _, _, _, _, _ => none
  else none

/-- Model of Go time.Parse with layout 20060102: exactly 8 characters, three all-digit
fields, calendar validation; the clock fields are zero. -/
def parseDate8 (s : Str) : Option DateTime :=
  if s.length = 8 then
    match digitsToNat (s.take 4), digitsToNat ((s.drop 4).take 2),
        digitsToNat ((s.drop 6).take 2) with
    | some y, some mo, some d =>
        if validClockDate y mo d 0 0 0 then some ⟨y, mo, d, 0, 0, 0⟩ else none
    | _, _, _ => none
  else none

/-- Days since 1970-01-01 of a proleptic Gregorian civil date (standard civil-from-days
inverse); used to model UTC instants of parsed timestamps. -/
def daysFromCivil (y m d : Int) : Int :=
  let y' := if m ≤ 2 then y - 1 else y
  let era := Int.fdiv y' 400
  let yoe := y' - era * 400
  let mp := Int.emod (m + 9) 12
  let doy := Int.fdiv (153 * mp + 2) 5 + d - 1
  let doe := yoe * 365 + Int.fdiv yoe 4 - Int.fdiv yoe 100 + doy
  era * 146097 + doe - 719468

/-- The UTC instant (Unix seconds) of a parsed timestamp; model of the time.Time value
returned by time.Parse, which parses in UTC. -/
def dtInstant (dt : DateTime) : Int :=
  daysFromCivil (Int.ofNat dt.year) (Int.ofNat dt.month) (Int.ofNat dt.day) * 86400
    + Int.ofNat dt.hour * 3600 + Int.ofNat dt.minute * 60 + Int.ofNat dt.second

/-- The UTC calendar day of an instant; two instants render to the same
Format(20060102) string exactly when their days agree. -/
def dayOf (t : Int) : Int :=
  Int.fdiv t 86400

/-- The fixed archive extension .tar.gz used by the key codec. -/
def tarGzExt : Str :=
  ".tar.gz".data

/-- Model of S3Client.buildKey: joins prefix, service, path name and the timestamped
filename with slashes (strings.Join of the four parts). -/
def buildKey (pfx service pathName timestamp : Str) : Str :=
  List.intercalate ['/'] [pfx, service, pathName, timestamp ++ tarGzExt]

/-- The object key computed by S3Client.Upload. Upload derives the key from buildKey
only; the compression flag of the archiver configuration never reaches key construction,
which this definition records by ignoring its first argument. -/
def uploadKey (_compression : Bool) (pfx service pathName timestamp : Str) : Str :=
  buildKey pfx service pathName timestamp

/-- One record of the S3Client BackupInfo struct. Date is a UTC instant (see header). -/
structure BackupInfo where
  Service : Str
  Path : Str
  Date : Int
  Key : Str
  Size : Int
  ETag : Str
deriving DecidableEq, Repr

/-- The trailing-filename checks of S3Client.parseKey: the .tar.gz suffix test, the
strings.TrimSuffix, the explicit length-15 and dash-at-8 validation, and time.Parse. -/
def parseFilename (filename : Str) : Option DateTime :=
  if goEndsWith filename tarGzExt then
    let timestamp := goTrimTrailing filename tarGzExt
    if timestamp.length = 15 ∧ timestamp[8]? = some '-' then
      parseTimestamp15 timestamp
    else none
  else none

/-- Model of S3Client.parseKey: checks the configured prefix, strips it, splits the
remainder on slashes, requires at least three parts, validates the trailing filename and
reassembles service, path name and date. Size and ETag are left at their zero values, as
in the source (List fills them in afterwards from the object metadata). -/
def parseKeyParts (pfx key : Str) : List Str :=
  (goTrimLeading key (pfx ++ ['/'])).splitOn '/'

/-- Model of S3Client.parseKey continued: the local variables relativePath and parts of
the source are the argument of parseKeyParts and its value. -/
def parseKey (pfx key : Str) : Option BackupInfo :=
  if pfx.isPrefixOf key then
    if (parseKeyParts pfx key).length < 3 then none
    else
      match parseFilename ((parseKeyParts pfx key).getLastD []) with
      | none => none
      | some dt =>
          some ⟨(parseKeyParts pfx key).headD [],
            List.intercalate ['/'] ((parseKeyParts pfx key).tail.dropLast),
            dtInstant dt, key, 0, []⟩
  else none

/-- The trailing filename of a key: the last slash-separated segment. -/
def lastSegment (key : Str) : Str :=
  (key.splitOn '/').getLastD []

/-- An archive filename is well formed when it is exactly a valid 15-character canonical
timestamp followed by the fixed archive extension (the checks in parseFilename). -/
def wellFormedArchiveName (filename : Str) : Bool :=
  (parseFilename filename).isSome

/-- Ascending date order on backup records (the comparator of the final sort of
selectBackupsForDeletion, non-strict form). -/
def dateLe (a b : BackupInfo) : Prop :=
  a.Date ≤ b.Date

/-- Descending date order on backup records (the comparator of the per-group sort,
non-strict form). -/
def dateGe (a b : BackupInfo) : Prop :=
  b.Date ≤ a.Date

instance : DecidableRel dateLe :=
  fun a b => inferInstanceAs (Decidable (a.Date ≤ b.Date))

instance : DecidableRel dateGe :=
  fun a b => inferInstanceAs (Decidable (b.Date ≤ a.Date))

instance : IsTotal BackupInfo dateLe :=
  ⟨fun a b => Int.le_total a.Date b.Date⟩

instance : IsTotal BackupInfo dateGe :=
  ⟨fun a b => Int.le_total b.Date a.Date⟩

instance : IsTrans BackupInfo dateLe :=
  ⟨fun _ _ _ h h' => le_trans h h'⟩

instance : IsTrans BackupInfo dateGe :=
  ⟨fun _ _ _ h h' => le_trans h' h⟩

/-- The grouping key fmt.Sprintf of service and path used by selectBackupsForDeletion. -/
def groupKey (b : BackupInfo) : Str :=
  b.Service ++ '/' :: b.Path

/-- Appends a key to an accumulator unless already present. -/
def insertKey (acc : List Str) (k : Str) : List Str :=
  if k ∈ acc then acc else acc ++ [k]

/-- The grouping keys of a record list, in first-appearance order (model of the Go map
whose iteration order is arbitrary; the selector sorts its output afterwards). -/
def groupKeysList (bs : List BackupInfo) : List Str :=
  bs.foldl (fun acc b => insertKey acc (groupKey b)) []

/-- The group of one key: its records in input order (Go builds groups by append). -/
def groupOf (bs : List BackupInfo) (k : Str) : List BackupInfo :=
  bs.filter (fun b => decide (groupKey b = k))

/-- All service/path groups of the input. -/
def pathGroups (bs : List BackupInfo) : List (List BackupInfo) :=
  (groupKeysList bs).map (groupOf bs)

/-- The candidate computation of selectBackupsForDeletion: sort the group newest first;
when keepLatest is positive and the group is strictly larger, drop the first keepLatest;
otherwise every record of the group is a candidate (this faithfully preserves the source
branch, including its behaviour on groups no larger than keepLatest). -/
def candidatesOf (keepLatest : Int) (g : List BackupInfo) : List BackupInfo :=
  if 0 < keepLatest ∧ keepLatest < ((g.insertionSort dateGe).length : Int) then
    (g.insertionSort dateGe).drop keepLatest.toNat
  else g.insertionSort dateGe

/-- Model of Service.selectBackupsForDeletion (cleanup): empty input short-circuits; the
cutoff is the evaluation instant minus olderThanDays days; per group, candidates strictly
older than the cutoff are collected; the union is sorted oldest first. The evaluation
instant now models time.Now(). -/
def selectBackupsForDeletion (bs : List BackupInfo) (olderThanDays keepLatest : Int)
    (now : Int) : List BackupInfo :=
  if bs = [] then []
  else
    (((pathGroups bs).map (fun g =>
      (candidatesOf keepLatest g).filter
        (fun b => decide (b.Date < now - olderThanDays * 86400)))).flatten).insertionSort
      dateLe

/-- The two fields of restore RestoreOptions that selectBackups consumes (the remaining
fields drive the orchestration around it, not the selection). -/
structure RestoreOptions where
  Date : Str
  Latest : Bool
deriving Repr

/-- Model of restore Service.parseDate: first the 15-character exact-timestamp layout
guarded by the explicit length and dash checks, then the 8-character date layout; any
other token is a parse error (none). The Bool is the isExactTime flag. -/
def parseDate (s : Str) : Option (Int × Bool) :=
  match (if s.length = 15 ∧ s[8]? = some '-' then parseTimestamp15 s else none) with
  | some dt => some (dtInstant dt, true)
  | none =>
      match parseDate8 s with
      | some dt => some (dtInstant dt, false)
      | none => none

/-- The date-filter phase of restore Service.selectBackups: with a nonempty token that
parses, keep exact-instant matches or same-day matches; with a token that fails to parse,
the source logs a warning and leaves the record list unfiltered. -/
def restoreFilter (bs : List BackupInfo) (opts : RestoreOptions) : List BackupInfo :=
  if opts.Date ≠ [] then
    match parseDate opts.Date with
    | none => bs
    | some (target, isExactTime) =>
        bs.filter (fun b =>
          if isExactTime then decide (b.Date = target)
          else decide (dayOf b.Date = dayOf target))
  else bs

/-- The restore grouping keys: path names in first-appearance order. -/
def restoreKeysList (bs : List BackupInfo) : List Str :=
  bs.foldl (fun acc b => insertKey acc b.Path) []

/-- The per-path groups of restore selection, each in input order. -/
def restoreGroups (bs : List BackupInfo) : List (List BackupInfo) :=
  (restoreKeysList bs).map (fun k => bs.filter (fun b => decide (b.Path = k)))

/-- The grouping and picking phase of restore Service.selectBackups: empty input yields
nil; per path, newest first, take the newest record when Latest is set or no date token
was given, otherwise keep every (already filtered) record of the path. -/
def selectFromGroups (backups : List BackupInfo) (opts : RestoreOptions) :
    List BackupInfo :=
  if backups = [] then []
  else
    ((restoreGroups backups).map (fun g =>
      if opts.Latest ∨ opts.Date = [] then (g.insertionSort dateGe).take 1
      else g.insertionSort dateGe)).flatten

/-- Model of restore Service.selectBackups: the date-filter phase followed by the
grouping and picking phase. The source returns only the record list; no error value
exists in its signature. -/
def selectBackups (bs : List BackupInfo) (opts : RestoreOptions) : List BackupInfo :=
  selectFromGroups (restoreFilter bs opts) opts

/-- Model of filepath.Rel restricted to paths lying on or under the base, the only shape
the archive walk hands to shouldInclude; the dot is produced for the base itself. Other
inputs are modelled as none, on which shouldInclude returns false exactly as the error
branch of the source does. -/
def goFilepathRel (base path : Str) : Option Str :=
  if path = base then some ['.']
  else if (base ++ ['/']).isPrefixOf path then some (path.drop (base.length + 1))
  else none

/-- Model of Archiver.shouldInclude: the base itself is always included; otherwise some
include folder must be a string prefix of the relative path or conversely (the
filepath.FromSlash normalisation is the identity on the slash-separated paths modelled
here). -/
def shouldInclude (path basePath : Str) (includeFolders : List Str) : Bool :=
  match goFilepathRel basePath path with
  | none => false
  | some relPath =>
      if relPath = ['.'] then true
      else includeFolders.any (fun f => f.isPrefixOf relPath || relPath.isPrefixOf f)

/-- The failure sites of backup Service.backupPath, in source order. -/
inductive BackupErr where
  | srcMissing
  | tempDirFail
  | tempFileFail
  | archiveFail
  | sizeStatFail
  | belowMinSize
  | seekFail
  | uploadFail
deriving DecidableEq, Repr

/-- The per-item result of backupPath (the fields the minimum-size claim concerns). -/
structure GoBackupResult where
  ArchiveSize : Int
  Err : Option BackupErr
deriving DecidableEq, Repr

/-- Environment of one backupPath run: the outcome of each external step and the size of
the archive the archiver produced. -/
structure BackupPathEnv where
  statOk : Bool
  mkdirOk : Bool
  tempOk : Bool
  archiveOk : Bool
  sizeStatOk : Bool
  archiveSize : Int
  seekOk : Bool
  uploadOk : Bool
deriving DecidableEq, Repr

/-- Model of backup Service.backupPath given the configured minimum size: the sequence of
early returns of the source, each yielding an item-level result instead of aborting the
run. The Bool records whether an upload to the object store was performed (it is true in
both upload branches, including a failed upload). -/
def backupPath (minSize : Int) (env : BackupPathEnv) : GoBackupResult × Bool :=
  if ¬ env.statOk then (⟨0, some .srcMissing⟩, false)
  else if ¬ env.mkdirOk then (⟨0, some .tempDirFail⟩, false)
  else if ¬ env.tempOk then (⟨0, some .tempFileFail⟩, false)
  else if ¬ env.archiveOk then (⟨0, some .archiveFail⟩, false)
  else if ¬ env.sizeStatOk then (⟨0, some .sizeStatFail⟩, false)
  else if 0 < minSize ∧ env.archiveSize < minSize then
    (⟨env.archiveSize, some .belowMinSize⟩, false)
  else if ¬ env.seekOk then (⟨env.archiveSize, some .seekFail⟩, false)
  else if ¬ env.uploadOk then (⟨env.archiveSize, some .uploadFail⟩, true)
  else (⟨env.archiveSize, none⟩, true)

/-- A concrete record: the older generation of one service/path group. -/
def demoOld : BackupInfo :=
  ⟨"svc".data, "data".data, 0, "backups/svc/data/19700101-000000.tar.gz".data, 5, []⟩

/-- A concrete record: a newer generation of the same service/path group. -/
def demoNew : BackupInfo :=
  ⟨"svc".data, "data".data, 3600, "backups/svc/data/19700101-010000.tar.gz".data, 6, []⟩

theorem isPrefixOfIff {l₁ l₂ : Str} : l₁.isPrefixOf l₂ = true ↔ l₁ <+: l₂ :=
  List.isPrefixOf_iff_prefix

theorem splitOn_never_nil (x : Char) (l : Str) : l.splitOn x ≠ [] :=
  List.splitOnP_ne_nil _ l

theorem splitOn_cons (x c : Char) (t : Str) :
    (c :: t).splitOn x =
      if c = x then [] :: t.splitOn x else (t.splitOn x).modifyHead (List.cons c) := by
  show (c :: t).splitOnP (· == x) = _
  rw [List.splitOnP_cons]
  by_cases h : c = x
  · simp [List.splitOn, h]
  · simp [List.splitOn, h]

theorem splitOn_single {x : Char} {b : Str} (hb : x ∉ b) : b.splitOn x = [b] :=
  List.splitOnP_eq_single (· == x) b (fun c hc hbeq => hb (eq_of_beq hbeq ▸ hc))

theorem modifyHead_append_front (f : Str → Str) (L M : List Str) (h : L ≠ []) :
    (L ++ M).modifyHead f = L.modifyHead f ++ M := by
  cases L with
  | nil => exact absurd rfl h
  | cons a t => simp

theorem splitOn_sep_left {x : Char} {a : Str} (ha : x ∉ a) (b : Str) :
    (a ++ x :: b).splitOn x = a :: b.splitOn x := by
  show (a ++ x :: b).splitOnP (· == x) = a :: b.splitOnP (· == x)
  exact List.splitOnP_first (· == x) a (fun c hc hbeq => ha (eq_of_beq hbeq ▸ hc)) x
    (beq_self_eq_true x) b

theorem splitOn_sep_right {x : Char} {b : Str} (hb : x ∉ b) : ∀ a : Str,
    (a ++ x :: b).splitOn x = a.splitOn x ++ [b] := by
  intro a
  induction a with
  | nil =>
      rw [List.nil_append, splitOn_cons, if_pos rfl, splitOn_single hb]
      rfl
  | cons c t ih =>
      rw [List.cons_append, splitOn_cons, splitOn_cons]
      by_cases h : c = x
      · rw [if_pos h, if_pos h, ih, List.cons_append]
      · rw [if_neg h, if_neg h, ih,
          modifyHead_append_front _ _ _ (splitOn_never_nil x t)]

theorem two_le_splitOn_length {x : Char} : ∀ {l : Str}, x ∈ l → 2 ≤ (l.splitOn x).length := by
  intro l
  induction l with
  | nil => intro hl; cases hl
  | cons c t ih =>
      intro hl
      rw [splitOn_cons]
      by_cases h : c = x
      · rw [if_pos h, List.length_cons]
        have h1 : 0 < (t.splitOn x).length := List.length_pos.mpr (splitOn_never_nil x t)
        omega
      · rw [if_neg h, List.length_modifyHead]
        rcases List.mem_cons.mp hl with h2 | h2
        · exact absurd h2.symm h
        · exact ih h2

theorem getLastD_splitOn_sep {x : Char} (b : Str) : ∀ a : Str,
    ((a ++ x :: b).splitOn x).getLastD [] = (b.splitOn x).getLastD [] := by
  intro a
  induction a with
  | nil => rw [List.nil_append, splitOn_cons, if_pos rfl, List.getLastD_cons]
  | cons c t ih =>
      rw [List.cons_append, splitOn_cons]
      by_cases h : c = x
      · rw [if_pos h, List.getLastD_cons]
        exact ih
      · rw [if_neg h]
        have h2 : 2 ≤ ((t ++ x :: b).splitOn x).length :=
          two_le_splitOn_length (by simp)
        obtain ⟨s0, S, hS⟩ : ∃ s0 S, (t ++ x :: b).splitOn x = s0 :: S := by
          cases hx : (t ++ x :: b).splitOn x with
          | nil => exact absurd hx (splitOn_never_nil x _)
          | cons s0 S => exact ⟨s0, S, rfl⟩
        obtain ⟨s1, S', hS'⟩ : ∃ s1 S', S = s1 :: S' := by
          cases S with
          | nil => rw [hS] at h2; simp at h2
          | cons s1 S' => exact ⟨s1, S', rfl⟩
        rw [hS, hS'] at ih ⊢
        rw [List.modifyHead_cons, List.getLastD_cons, List.getLastD_cons]
        rw [List.getLastD_cons, List.getLastD_cons] at ih
        exact ih

theorem getLastD_splitOn_suffix {x : Char} : ∀ l : Str, ((l.splitOn x).getLastD []) <:+ l := by
  intro l
  induction l with
  | nil => simp [List.splitOn]
  | cons c t ih =>
      rw [splitOn_cons]
      by_cases h : c = x
      · rw [if_pos h, List.getLastD_cons]
        exact ih.trans (List.suffix_cons c t)
      · rw [if_neg h]
        cases hS : t.splitOn x with
        | nil => exact absurd hS (splitOn_never_nil x t)
        | cons s0 S =>
            cases S with
            | nil =>
                have ht : t = s0 := by
                  have h3 := List.intercalate_splitOn t x
                  rw [hS] at h3
                  simpa [List.intercalate] using h3.symm
                rw [List.modifyHead_cons, List.getLastD_cons, List.getLastD_nil, ht]
            | cons s1 S' =>
                rw [List.modifyHead_cons, List.getLastD_cons, List.getLastD_cons]
                rw [hS, List.getLastD_cons, List.getLastD_cons] at ih
                exact ih.trans (List.suffix_cons c t)

theorem digitsToNat_isDigit {s : Str} {n : Nat} (h : digitsToNat s = some n) :
    ∀ c ∈ s, c.isDigit = true := by
  unfold digitsToNat at h
  split at h
  · next hc => exact fun c hmem => List.all_eq_true.mp hc.2 c hmem
  · cases h

theorem no_slash_of_digits {t : Str} {n : Nat} (h : digitsToNat t = some n) (j : Nat)
    (hj : t[j]? = some '/') : False := by
  have hd := digitsToNat_isDigit h '/' (List.getElem?_mem hj)
  exact absurd hd (by decide)

theorem parseTimestamp15_shape {s : Str} {dt : DateTime}
    (h : parseTimestamp15 s = some dt) :
    s.length = 15 ∧ s[8]? = some '-' ∧ '/' ∉ s := by
  unfold parseTimestamp15 at h
  split at h
  · next hc =>
      refine ⟨hc.1, hc.2, ?_⟩
      split at h
      · next y mo d hh mi sec hA hB hC hD hE hF =>
          intro hmem
          obtain ⟨i, hi⟩ := List.mem_iff_getElem?.mp hmem
          have hil : i < 15 := by
            by_contra hge
            rw [List.getElem?_eq_none (by omega : s.length ≤ i)] at hi
            cases hi
          interval_cases i
          · exact no_slash_of_digits hA 0
              (by simpa [List.getElem?_take] using hi)
          · exact no_slash_of_digits hA 1
              (by simpa [List.getElem?_take] using hi)
          · exact no_slash_of_digits hA 2
              (by simpa [List.getElem?_take] using hi)
          · exact no_slash_of_digits hA 3
              (by simpa [List.getElem?_take] using hi)
          · exact no_slash_of_digits hB 0
              (by simpa [List.getElem?_take, List.getElem?_drop] using hi)
          · exact no_slash_of_digits hB 1
              (by simpa [List.getElem?_take, List.getElem?_drop] using hi)
          · exact no_slash_of_digits hC 0
              (by simpa [List.getElem?_take, List.getElem?_drop] using hi)
          · exact no_slash_of_digits hC 1
              (by simpa [List.getElem?_take, List.getElem?_drop] using hi)
          · rw [hc.2] at hi; exact absurd hi (by decide)
          · exact no_slash_of_digits hD 0
              (by simpa [List.getElem?_take, List.getElem?_drop] using hi)
          · exact no_slash_of_digits hD 1
              (by simpa [List.getElem?_take, List.getElem?_drop] using hi)
          · exact no_slash_of_digits hE 0
              (by simpa [List.getElem?_take, List.getElem?_drop] using hi)
          · exact no_slash_of_digits hE 1
              (by simpa [List.getElem?_take, List.getElem?_drop] using hi)
          · exact no_slash_of_digits hF 0
              (by simpa [List.getElem?_take, List.getElem?_drop] using hi)
          · exact no_slash_of_digits hF 1
              (by simpa [List.getElem?_take, List.getElem?_drop] using hi)
      · cases h
  · cases h

theorem buildKey_eq (pfx service pathName ts : Str) :
    buildKey pfx service pathName ts
      = pfx ++ '/' :: (service ++ '/' :: (pathName ++ '/' :: (ts ++ tarGzExt))) := by
  simp [buildKey, List.intercalate, List.intersperse]

/-- Claim C4: key round-trip. For every nonempty slash-free service, nonempty path name
(possibly containing slashes) and canonical 15-character timestamp denoting a valid
calendar time, parseKey applied to buildKey recovers the service, the path name and the
instant of the encoded timestamp, for any configured prefix. -/
theorem c4_key_roundtrip (pfx service pathName ts : Str) (dt : DateTime)
    (hne : service ≠ []) (hs : '/' ∉ service) (hp : pathName ≠ [])
    (hts : parseTimestamp15 ts = some dt) :
    parseKey pfx (buildKey pfx service pathName ts)
      = some ⟨service, pathName, dtInstant dt, buildKey pfx service pathName ts, 0, []⟩ := by
  obtain ⟨hlen, hdash, hslash⟩ := parseTimestamp15_shape hts
  have hfs : '/' ∉ ts ++ tarGzExt := by
    intro hmem
    rcases List.mem_append.mp hmem with hm | hm
    · exact hslash hm
    · exact absurd hm (by decide)
  have hkey := buildKey_eq pfx service pathName ts
  have hpre1 : pfx.isPrefixOf (buildKey pfx service pathName ts) = true := by
    rw [hkey]
    exact isPrefixOfIff.mpr
      ⟨'/' :: (service ++ '/' :: (pathName ++ '/' :: (ts ++ tarGzExt))), rfl⟩
  have hpre2 : (pfx ++ ['/']).isPrefixOf (buildKey pfx service pathName ts) = true := by
    rw [hkey]
    exact isPrefixOfIff.mpr
      ⟨service ++ '/' :: (pathName ++ '/' :: (ts ++ tarGzExt)), by simp⟩
  have hrel : goTrimLeading (buildKey pfx service pathName ts) (pfx ++ ['/'])
      = service ++ '/' :: (pathName ++ '/' :: (ts ++ tarGzExt)) := by
    unfold goTrimLeading
    rw [if_pos hpre2, hkey]
    have hsplit : pfx ++ '/' :: (service ++ '/' :: (pathName ++ '/' :: (ts ++ tarGzExt)))
        = (pfx ++ ['/']) ++ (service ++ '/' :: (pathName ++ '/' :: (ts ++ tarGzExt))) := by
      simp
    rw [hsplit]
    exact List.drop_left _ _
  have hparts : (service ++ '/' :: (pathName ++ '/' :: (ts ++ tarGzExt))).splitOn '/'
      = service :: (pathName.splitOn '/' ++ [ts ++ tarGzExt]) := by
    rw [splitOn_sep_left hs, splitOn_sep_right hfs]
  have hpf : parseFilename (ts ++ tarGzExt) = some dt := by
    unfold parseFilename
    have hsuf : goEndsWith (ts ++ tarGzExt) tarGzExt = true := by
      unfold goEndsWith
      exact List.isSuffixOf_iff_suffix.mpr (List.suffix_append ts tarGzExt)
    rw [if_pos hsuf]
    have htrim : goTrimTrailing (ts ++ tarGzExt) tarGzExt = ts := by
      unfold goTrimTrailing
      rw [if_pos (List.isSuffixOf_iff_suffix.mpr (List.suffix_append ts tarGzExt))]
      have hlen2 : (ts ++ tarGzExt).length - tarGzExt.length = ts.length := by
        simp
      rw [hlen2]
      exact List.take_left ts tarGzExt
    rw [htrim, if_pos ⟨hlen, hdash⟩, hts]
  have hlp : ¬ (service :: (pathName.splitOn '/' ++ [ts ++ tarGzExt])).length < 3 := by
    have hpos := List.length_pos.mpr (splitOn_never_nil '/' pathName)
    simp only [List.length_cons, List.length_append, List.length_singleton]
    omega
  have hlast : (service :: (pathName.splitOn '/' ++ [ts ++ tarGzExt])).getLastD []
      = ts ++ tarGzExt := by
    rw [List.getLastD_cons, List.getLastD_concat]
  have hpp : parseKeyParts pfx (buildKey pfx service pathName ts)
      = service :: (pathName.splitOn '/' ++ [ts ++ tarGzExt]) := by
    unfold parseKeyParts
    rw [hrel, hparts]
  unfold parseKey
  rw [if_pos hpre1]
  simp only [hpp, hlp, if_false, hlast, hpf]
  simp [List.dropLast_concat, List.intercalate_splitOn]

/-- Claim C4 witness at a concrete prefix, service, multi-segment path and timestamp. -/
theorem c4_witness :
    parseKey "backups".data
        (buildKey "backups".data "db".data "data/sub".data "20240131-235959".data)
      = some ⟨"db".data, "data/sub".data, dtInstant ⟨2024, 1, 31, 23, 59, 59⟩,
          buildKey "backups".data "db".data "data/sub".data "20240131-235959".data, 0, []⟩ :=
  c4_key_roundtrip "backups".data "db".data "data/sub".data "20240131-235959".data
    ⟨2024, 1, 31, 23, 59, 59⟩ (by decide) (by decide) (by decide) (by decide)

theorem parseFilename_suffix {f : Str} {dt : DateTime} (h : parseFilename f = some dt) :
    tarGzExt <:+ f := by
  unfold parseFilename at h
  split at h
  · next hs => exact List.isSuffixOf_iff_suffix.mp hs
  · cases h

/-- Claim C5: foreign-key rejection. For every key under the configured prefix whose
trailing filename is not exactly a well-formed 15-character canonical timestamp followed
by the fixed archive extension, parseKey returns none; the function is total and has no
error channel, so no error can be raised for such keys. -/
theorem c5_foreign_key_rejected (pfx key : Str) (hpre : pfx <+: key)
    (hbad : wellFormedArchiveName (lastSegment key) = false) :
    parseKey pfx key = none := by
  have hpfe : parseFilename (lastSegment key) = none := by
    unfold wellFormedArchiveName at hbad
    cases hx : parseFilename (lastSegment key) with
    | none => rfl
    | some dt => rw [hx] at hbad; cases hbad
  have hseg : (parseKeyParts pfx key).getLastD [] = lastSegment key := by
    unfold parseKeyParts goTrimLeading
    by_cases hp : (pfx ++ ['/']).isPrefixOf key
    · rw [if_pos hp]
      obtain ⟨t, ht⟩ := isPrefixOfIff.mp hp
      have hk : key = pfx ++ '/' :: t := by rw [← ht]; simp
      have hd : key.drop ((pfx ++ ['/']).length) = t := by
        rw [← ht]; exact List.drop_left _ _
      rw [hd, hk]
      unfold lastSegment
      exact (getLastD_splitOn_sep t pfx).symm
    · rw [if_neg hp]; rfl
  unfold parseKey
  rw [if_pos (isPrefixOfIff.mpr hpre)]
  by_cases hl : (parseKeyParts pfx key).length < 3
  · simp only [hl, if_true]
  · simp only [hl, if_false, hseg, hpfe]

/-- Claim C5 witness: a key under the prefix whose trailing filename is a foreign object
name is silently rejected. -/
theorem c5_witness :
    "backups".data <+: "backups/svc/data/readme.txt".data ∧
    parseKey "backups".data "backups/svc/data/readme.txt".data = none :=
  ⟨by decide, c5_foreign_key_rejected "backups".data "backups/svc/data/readme.txt".data
    (by decide) (by decide)⟩

/-- Claim C10: for every compression setting, every object key produced by Upload ends
with the .tar.gz suffix (Upload never consults the compression flag when building keys),
and parseKey accepts only keys ending with that suffix; archives written with compression
disabled are therefore stored, listed and decoded under the same suffix. -/
theorem c10_tar_gz_suffix_invariant :
    (∀ (compression : Bool) (pfx service pathName ts : Str),
      goEndsWith (uploadKey compression pfx service pathName ts) tarGzExt = true) ∧
    (∀ (pfx key : Str) (b : BackupInfo), parseKey pfx key = some b →
      goEndsWith key tarGzExt = true) := by
  constructor
  · intro compression pfx service pathName ts
    unfold uploadKey goEndsWith
    rw [buildKey_eq]
    apply List.isSuffixOf_iff_suffix.mpr
    exact (List.suffix_append ts tarGzExt).trans
      ((List.suffix_cons '/' _).trans
        ((List.suffix_append pathName _).trans
          ((List.suffix_cons '/' _).trans
            ((List.suffix_append service _).trans
              ((List.suffix_cons '/' _).trans (List.suffix_append pfx _))))))
  · intro pfx key b hpk
    unfold parseKey at hpk
    split at hpk
    · split at hpk
      · cases hpk
      · split at hpk
        · cases hpk
        · next dt heq =>
            have h1 : tarGzExt <:+ (parseKeyParts pfx key).getLastD [] :=
              parseFilename_suffix heq
            have h2 : (parseKeyParts pfx key).getLastD []
                <:+ goTrimLeading key (pfx ++ ['/']) :=
              getLastD_splitOn_suffix _
            have h3 : goTrimLeading key (pfx ++ ['/']) <:+ key := by
              unfold goTrimLeading
              by_cases hp : (pfx ++ ['/']).isPrefixOf key
              · rw [if_pos hp]; exact List.drop_suffix _ _
              · rw [if_neg hp]
            unfold goEndsWith
            exact List.isSuffixOf_iff_suffix.mpr ((h1.trans h2).trans h3)
    · cases hpk

/-- Claim C10 witness: the suffix facts at a concrete key, for both compression settings
of Upload and for a concrete successful parse. -/
theorem c10_witness :
    goEndsWith (uploadKey false "backups".data "db".data "d".data "20240131-235959".data)
        tarGzExt = true ∧
    goEndsWith (uploadKey true "backups".data "db".data "d".data "20240131-235959".data)
        tarGzExt = true ∧
    goEndsWith "backups/db/d/20240131-235959.tar.gz".data tarGzExt = true :=
  ⟨c10_tar_gz_suffix_invariant.1 false "backups".data "db".data "d".data
      "20240131-235959".data,
    c10_tar_gz_suffix_invariant.1 true "backups".data "db".data "d".data
      "20240131-235959".data,
    c10_tar_gz_suffix_invariant.2 "backups".data "backups/db/d/20240131-235959.tar.gz".data
      ⟨"db".data, "d".data, dtInstant ⟨2024, 1, 31, 23, 59, 59⟩,
        "backups/db/d/20240131-235959.tar.gz".data, 0, []⟩ (by decide)⟩

/-- Claim C1 fails on the code: for a group whose size does not exceed keepLatest, the
selector makes every record of the group a candidate instead of retaining it, because
the branch guarding the keepLatest cut requires the group to be strictly larger. Here a
single record (group size 1, keepLatest 1, so keepLatest is at least the group size) that
is older than the cutoff is selected for deletion, although the claim and the source
comment (keep the latest N backups regardless of age) demand that nothing be selected.
The evaluation time is day 10 and the age limit one day. -/
theorem c1_keepLatest_floor_violated :
    selectBackupsForDeletion [demoOld] 1 1 (10 * 86400) = [demoOld] := by
  decide

/-- Claim C2 fails on the code, as a consequence of the same slip: with two records of
one group, both older than the cutoff, and keepLatest 1, the first run selects only the
older record (the newer one is protected by the keepLatest cut); re-running the selection
on the remaining single-record set selects the surviving record as well, because the
group now being no larger than keepLatest disables the protection. The second selection
is therefore nonempty, refuting convergence. -/
theorem c2_convergence_violated :
    selectBackupsForDeletion [demoOld, demoNew] 1 1 (10 * 86400) = [demoOld] ∧
    selectBackupsForDeletion [demoNew] 1 1 (10 * 86400) = [demoNew] := by
  constructor
  · decide
  · decide

theorem mem_insertKey {acc : List Str} {k' k : Str} :
    k ∈ insertKey acc k' ↔ k ∈ acc ∨ k = k' := by
  unfold insertKey
  by_cases hin : k' ∈ acc
  · rw [if_pos hin]
    constructor
    · exact Or.inl
    · rintro (h | rfl)
      · exact h
      · exact hin
  · rw [if_neg hin]
    simp

theorem mem_foldl_insert (f : BackupInfo → Str) :
    ∀ (l : List BackupInfo) (acc : List Str) (k : Str),
      k ∈ l.foldl (fun acc b => insertKey acc (f b)) acc ↔
        k ∈ acc ∨ ∃ b ∈ l, f b = k := by
  intro l
  induction l with
  | nil => intro acc k; simp
  | cons b t ih =>
      intro acc k
      rw [List.foldl_cons, ih, mem_insertKey]
      constructor
      · rintro ((h | rfl) | ⟨b', hb', rfl⟩)
        · exact Or.inl h
        · exact Or.inr ⟨b, List.mem_cons_self b t, rfl⟩
        · exact Or.inr ⟨b', List.mem_cons_of_mem b hb', rfl⟩
      · rintro (h | ⟨b', hb', rfl⟩)
        · exact Or.inl (Or.inl h)
        · rcases List.mem_cons.mp hb' with rfl | h2
          · exact Or.inl (Or.inr rfl)
          · exact Or.inr ⟨b', h2, rfl⟩

theorem mem_groupKeysList {bs : List BackupInfo} {k : Str} :
    k ∈ groupKeysList bs ↔ ∃ b ∈ bs, groupKey b = k := by
  unfold groupKeysList
  rw [mem_foldl_insert]
  simp

theorem mem_groupOf {bs : List BackupInfo} {k : Str} {r : BackupInfo} :
    r ∈ groupOf bs k ↔ r ∈ bs ∧ groupKey r = k := by
  unfold groupOf
  rw [List.mem_filter]
  simp

theorem mem_candidatesOf_sub {keepLatest : Int} {g : List BackupInfo} {r : BackupInfo}
    (h : r ∈ candidatesOf keepLatest g) : r ∈ g := by
  unfold candidatesOf at h
  split at h
  · exact (List.mem_insertionSort dateGe).mp (List.drop_subset _ _ h)
  · exact (List.mem_insertionSort dateGe).mp h

theorem mem_select_iff (bs : List BackupInfo) (olderThanDays keepLatest now : Int)
    (r : BackupInfo) :
    r ∈ selectBackupsForDeletion bs olderThanDays keepLatest now ↔
      bs ≠ [] ∧ groupKey r ∈ groupKeysList bs ∧
        r ∈ (candidatesOf keepLatest (groupOf bs (groupKey r))).filter
          (fun b => decide (b.Date < now - olderThanDays * 86400)) := by
  unfold selectBackupsForDeletion
  by_cases hbs : bs = []
  · subst hbs
    simp
  · rw [if_neg hbs]
    simp only [List.mem_insertionSort, List.mem_flatten, List.mem_map, pathGroups]
    constructor
    · rintro ⟨gl, ⟨g, ⟨k, hk, rfl⟩, rfl⟩, hr⟩
      have hrg : r ∈ groupOf bs k := mem_candidatesOf_sub (List.mem_filter.mp hr).1
      have hkey : groupKey r = k := (mem_groupOf.mp hrg).2
      rw [hkey]
      exact ⟨hbs, hk, hr⟩
    · rintro ⟨-, hk, hr⟩
      exact ⟨_, ⟨groupOf bs (groupKey r), ⟨groupKey r, hk, rfl⟩, rfl⟩, hr⟩

theorem select_sorted (bs : List BackupInfo) (olderThanDays keepLatest now : Int) :
    (selectBackupsForDeletion bs olderThanDays keepLatest now).Sorted dateLe := by
  unfold selectBackupsForDeletion
  split
  · exact List.sorted_nil
  · exact List.sorted_insertionSort dateLe _

theorem append_sep_inj {x : Char} : ∀ {a c b d : Str}, x ∉ a → x ∉ c →
    (a ++ x :: b = c ++ x :: d ↔ a = c ∧ b = d) := by
  intro a
  induction a with
  | nil =>
      intro c b d ha hc
      cases c with
      | nil => simp
      | cons y c' =>
          constructor
          · intro h
            rw [List.nil_append, List.cons_append] at h
            injection h with h1 h2
            exact absurd (by rw [h1]; exact List.mem_cons_self y c') hc
          · rintro ⟨h, -⟩
            cases h
  | cons z a' ih =>
      intro c b d ha hc
      cases c with
      | nil =>
          constructor
          · intro h
            rw [List.cons_append, List.nil_append] at h
            injection h with h1 h2
            exact absurd (by rw [← h1]; exact List.mem_cons_self z a') ha
          · rintro ⟨h, -⟩
            cases h
      | cons y c' =>
          constructor
          · intro h
            rw [List.cons_append, List.cons_append] at h
            injection h with h1 h2
            have ha' : x ∉ a' := fun hm => ha (List.mem_cons_of_mem z hm)
            have hc' : x ∉ c' := fun hm => hc (List.mem_cons_of_mem y hm)
            obtain ⟨hac, hbd⟩ := (ih ha' hc').mp h2
            exact ⟨by rw [h1, hac], hbd⟩
          · rintro ⟨h, rfl⟩
            rw [h]

theorem groupKey_eq_iff {b : BackupInfo} {svc p : Str} (hb : '/' ∉ b.Service)
    (hs : '/' ∉ svc) : groupKey b = svc ++ '/' :: p ↔ b.Service = svc ∧ b.Path = p := by
  unfold groupKey
  exact append_sep_inj hb hs

theorem groupOf_pair (bs : List BackupInfo) (svc p : Str)
    (hsvc : ∀ b ∈ bs, '/' ∉ b.Service) (hs : '/' ∉ svc) :
    groupOf bs (svc ++ '/' :: p)
      = bs.filter (fun b => decide (b.Service = svc ∧ b.Path = p)) := by
  unfold groupOf
  apply List.filter_congr
  intro b hb
  simp only [decide_eq_decide]
  exact groupKey_eq_iff (hsvc b hb) hs

theorem candidatesOf_eq_drop {keepLatest : Int} {g : List BackupInfo} (hK : 0 ≤ keepLatest)
    (hlen : keepLatest < (g.length : Int)) :
    candidatesOf keepLatest g = (g.insertionSort dateGe).drop keepLatest.toNat := by
  unfold candidatesOf
  split
  · rfl
  · next hcond =>
      have hKz : keepLatest = 0 := by
        by_contra hne
        exact hcond ⟨lt_of_le_of_ne hK (Ne.symm hne),
          by rw [List.length_insertionSort]; exact hlen⟩
      rw [hKz]
      simp

theorem nodup_of_pairwise_dates {bs : List BackupInfo}
    (h : bs.Pairwise (fun a b => a.Date ≠ b.Date)) : bs.Nodup :=
  h.imp fun hD hEq => hD (by rw [hEq])

/-- Claim C3: for every service/path group of N records with keepLatest at least 0 and
strictly below N (records pairwise distinct in date and services slash-free, as produced
by the key codec), the selector retains the keepLatest newest records of the group
unconditionally (none of them is ever selected), the remaining records are exactly the
candidates computed by the code, a candidate is selected if and only if its date is
strictly older than the evaluation instant minus maxAgeDays days, and the returned union
over all groups is sorted ascending by date. -/
theorem c3_retention_selection_rule (bs : List BackupInfo)
    (olderThanDays keepLatest now : Int) (svc p : Str)
    (hdist : bs.Pairwise (fun a b => a.Date ≠ b.Date))
    (hsvc : ∀ b ∈ bs, '/' ∉ b.Service) (hs : '/' ∉ svc)
    (hK : 0 ≤ keepLatest)
    (hN : keepLatest <
      ((bs.filter (fun b => decide (b.Service = svc ∧ b.Path = p))).length : Int)) :
    (selectBackupsForDeletion bs olderThanDays keepLatest now).Sorted dateLe ∧
    candidatesOf keepLatest (bs.filter (fun b => decide (b.Service = svc ∧ b.Path = p)))
      = ((bs.filter (fun b => decide (b.Service = svc ∧ b.Path = p))).insertionSort
          dateGe).drop keepLatest.toNat ∧
    (∀ r ∈ ((bs.filter (fun b => decide (b.Service = svc ∧ b.Path = p))).insertionSort
        dateGe).take keepLatest.toNat,
      r ∉ selectBackupsForDeletion bs olderThanDays keepLatest now) ∧
    (∀ r ∈ ((bs.filter (fun b => decide (b.Service = svc ∧ b.Path = p))).insertionSort
        dateGe).drop keepLatest.toNat,
      (r ∈ selectBackupsForDeletion bs olderThanDays keepLatest now ↔
        r.Date < now - olderThanDays * 86400)) := by
  set group := bs.filter (fun b => decide (b.Service = svc ∧ b.Path = p)) with hgroup
  have hgOf : groupOf bs (svc ++ '/' :: p) = group := groupOf_pair bs svc p hsvc hs
  have hnodup : bs.Nodup := nodup_of_pairwise_dates hdist
  have hgnodup : group.Nodup := hnodup.filter _
  have hsnodup : (group.insertionSort dateGe).Nodup :=
    (List.perm_insertionSort dateGe group).nodup_iff.mpr hgnodup
  have hcand : candidatesOf keepLatest group
      = (group.insertionSort dateGe).drop keepLatest.toNat :=
    candidatesOf_eq_drop hK hN
  have hmem_groupkey : ∀ r ∈ group, groupKey r = svc ++ '/' :: p := by
    intro r hr
    have hsp := of_decide_eq_true (List.mem_filter.mp hr).2
    unfold groupKey
    rw [hsp.1, hsp.2]
  refine ⟨select_sorted bs olderThanDays keepLatest now, hcand, ?_, ?_⟩
  · intro r hrtake hrout
    obtain ⟨-, -, hrsel⟩ :=
      (mem_select_iff bs olderThanDays keepLatest now r).mp hrout
    have hrg : r ∈ group :=
      (List.mem_insertionSort dateGe).mp (List.take_subset _ _ hrtake)
    have hkey := hmem_groupkey r hrg
    rw [hkey, hgOf, hcand] at hrsel
    have hrdrop : r ∈ (group.insertionSort dateGe).drop keepLatest.toNat :=
      (List.mem_filter.mp hrsel).1
    have hnd2 : ((group.insertionSort dateGe).take keepLatest.toNat
        ++ (group.insertionSort dateGe).drop keepLatest.toNat).Nodup := by
      rw [List.take_append_drop]
      exact hsnodup
    exact (List.nodup_append.mp hnd2).2.2 hrtake hrdrop
  · intro r hrdrop
    have hrg : r ∈ group :=
      (List.mem_insertionSort dateGe).mp (List.drop_subset _ _ hrdrop)
    have hkey := hmem_groupkey r hrg
    have hrbs : r ∈ bs := (List.mem_filter.mp hrg).1
    constructor
    · intro hrout
      obtain ⟨-, -, hrsel⟩ :=
        (mem_select_iff bs olderThanDays keepLatest now r).mp hrout
      rw [hkey, hgOf] at hrsel
      exact of_decide_eq_true (List.mem_filter.mp hrsel).2
    · intro hdate
      apply (mem_select_iff bs olderThanDays keepLatest now r).mpr
      refine ⟨?_, ?_, ?_⟩
      · intro h0
        rw [h0] at hrbs
        cases hrbs
      · exact mem_groupKeysList.mpr ⟨r, hrbs, rfl⟩
      · rw [hkey, hgOf, hcand]
        exact List.mem_filter.mpr ⟨hrdrop, decide_eq_true hdate⟩

/-- Claim C3 witness: the group rule applied to a concrete two-record group with
keepLatest 1, age limit one day, evaluated at day 10. -/
theorem c3_witness :
    (selectBackupsForDeletion [demoOld, demoNew] 1 1 (10 * 86400)).Sorted dateLe ∧
    candidatesOf 1 ([demoOld, demoNew].filter
        (fun b => decide (b.Service = "svc".data ∧ b.Path = "data".data)))
      = (([demoOld, demoNew].filter
          (fun b => decide (b.Service = "svc".data ∧ b.Path = "data".data))).insertionSort
            dateGe).drop (1 : Int).toNat ∧
    (∀ r ∈ (([demoOld, demoNew].filter
        (fun b => decide (b.Service = "svc".data ∧ b.Path = "data".data))).insertionSort
          dateGe).take (1 : Int).toNat,
      r ∉ selectBackupsForDeletion [demoOld, demoNew] 1 1 (10 * 86400)) ∧
    (∀ r ∈ (([demoOld, demoNew].filter
        (fun b => decide (b.Service = "svc".data ∧ b.Path = "data".data))).insertionSort
          dateGe).drop (1 : Int).toNat,
      (r ∈ selectBackupsForDeletion [demoOld, demoNew] 1 1 (10 * 86400) ↔
        r.Date < 10 * 86400 - 1 * 86400)) :=
  c3_retention_selection_rule [demoOld, demoNew] 1 1 (10 * 86400) "svc".data "data".data
    (by decide) (by decide) (by decide) (by decide) (by decide)

/-- Claim C6 fails on the code: the restore selection does not report an error for a
token that is neither an 8-character date nor a 15-character canonical timestamp. At the
concrete invalid token the parse fails, yet the selection proceeds and returns records:
with Latest unset it returns every record of the path, exactly as if the date filter had
been dropped, and identically to the computation that skips the filter phase. -/
theorem c6_counterexample :
    parseDate "baddate".data = none ∧
    selectBackups [demoOld, demoNew] ⟨"baddate".data, false⟩ = [demoNew, demoOld] ∧
    selectFromGroups [demoOld, demoNew] ⟨"baddate".data, false⟩ = [demoNew, demoOld] := by
  refine ⟨by decide, by decide, by decide⟩

/-- Claim C6 amended: for every restore target-filter token that is neither an
8-character calendar date nor a 15-character exact canonical timestamp, the restore
selection does not report an error; it logs a warning, ignores the date filter, and
proceeds on the unfiltered record set exactly as if the filtering phase were skipped. -/
theorem c6_invalid_token_ignored (bs : List BackupInfo) (opts : RestoreOptions)
    (hne : opts.Date ≠ []) (hbad : parseDate opts.Date = none) :
    selectBackups bs opts = selectFromGroups bs opts := by
  unfold selectBackups restoreFilter
  rw [if_pos hne, hbad]

/-- Claim C6 amended witness at the concrete invalid token. -/
theorem c6_witness :
    selectBackups [demoOld, demoNew] ⟨"baddate".data, true⟩
      = selectFromGroups [demoOld, demoNew] ⟨"baddate".data, true⟩ :=
  c6_invalid_token_ignored [demoOld, demoNew] ⟨"baddate".data, true⟩ (by decide) (by decide)

theorem nodup_foldl_insert (f : BackupInfo → Str) :
    ∀ (l : List BackupInfo) (acc : List Str), acc.Nodup →
      (l.foldl (fun acc b => insertKey acc (f b)) acc).Nodup := by
  intro l
  induction l with
  | nil => intro acc h; exact h
  | cons b t ih =>
      intro acc h
      rw [List.foldl_cons]
      apply ih
      unfold insertKey
      by_cases hin : f b ∈ acc
      · rw [if_pos hin]; exact h
      · rw [if_neg hin]
        refine List.nodup_append.mpr ⟨h, List.nodup_singleton _, ?_⟩
        intro a ha hb
        rw [List.mem_singleton] at hb
        exact hin (hb ▸ ha)

theorem flatten_map_single (p : Str) (F : Str → List BackupInfo) :
    ∀ keys : List Str, keys.Nodup → p ∈ keys → (∀ k ∈ keys, k ≠ p → F k = []) →
      (keys.map F).flatten = F p := by
  intro keys
  induction keys with
  | nil => intro _ hp _; cases hp
  | cons k t ih =>
      intro hnd hp hF
      rw [List.map_cons, List.flatten_cons]
      rcases List.mem_cons.mp hp with rfl | hpt
      · have hnil : (t.map F).flatten = [] := by
          rw [List.flatten_eq_nil_iff]
          intro x hx
          obtain ⟨k', hk', rfl⟩ := List.mem_map.mp hx
          refine hF k' (List.mem_cons_of_mem _ hk') ?_
          intro he
          rw [he] at hk'
          exact (List.nodup_cons.mp hnd).1 hk'
        rw [hnil, List.append_nil]
      · have hk : F k = [] := by
          refine hF k (List.mem_cons_self k t) ?_
          intro he
          rw [← he] at hpt
          exact (List.nodup_cons.mp hnd).1 hpt
        rw [hk, List.nil_append]
        exact ih (List.nodup_cons.mp hnd).2 hpt
          (fun k' hk' => hF k' (List.mem_cons_of_mem _ hk'))

/-- Claim C7: for every record set of one service containing at least one record for a
path, restore selection with no date token (which is also the configuration in which the
latest option is meaningful; the two coincide, since the branch takes the newest record
whenever Latest is set or no date was given) returns exactly one record for that path,
and it is one of maximal date among the records of the path. -/
theorem c7_latest_selection (bs : List BackupInfo) (opts : RestoreOptions) (p : Str)
    (hdate : opts.Date = []) (hex : ∃ b ∈ bs, b.Path = p) :
    ∃ m, (selectBackups bs opts).filter (fun b => decide (b.Path = p)) = [m] ∧
      m ∈ bs ∧ m.Path = p ∧ ∀ b ∈ bs, b.Path = p → b.Date ≤ m.Date := by
  obtain ⟨b0, hb0, hb0p⟩ := hex
  have hbs : bs ≠ [] := by
    intro h
    rw [h] at hb0
    cases hb0
  have hfil : restoreFilter bs opts = bs := by
    unfold restoreFilter
    rw [if_neg (by simp [hdate])]
  set gp := bs.filter (fun b => decide (b.Path = p)) with hgp
  have hgpne : gp ≠ [] := by
    intro h
    have hm : b0 ∈ gp := List.mem_filter.mpr ⟨hb0, decide_eq_true hb0p⟩
    rw [h] at hm
    cases hm
  obtain ⟨m, t, hmt⟩ : ∃ m t, gp.insertionSort dateGe = m :: t := by
    cases hx : gp.insertionSort dateGe with
    | nil =>
        exfalso
        apply hgpne
        have hperm := List.perm_insertionSort dateGe gp
        rw [hx] at hperm
        exact (hperm.symm).eq_nil
    | cons m t => exact ⟨m, t, rfl⟩
  have hm_in : m ∈ gp := by
    have : m ∈ gp.insertionSort dateGe := by
      rw [hmt]
      exact List.mem_cons_self m t
    exact (List.mem_insertionSort dateGe).mp this
  have hm_bs : m ∈ bs := (List.mem_filter.mp hm_in).1
  have hm_p : m.Path = p := of_decide_eq_true (List.mem_filter.mp hm_in).2
  have hm_max : ∀ b ∈ bs, b.Path = p → b.Date ≤ m.Date := by
    intro b hb hbp
    have hbgp : b ∈ gp := List.mem_filter.mpr ⟨hb, decide_eq_true hbp⟩
    have hbsort : b ∈ gp.insertionSort dateGe := (List.mem_insertionSort dateGe).mpr hbgp
    rw [hmt] at hbsort
    rcases List.mem_cons.mp hbsort with rfl | hbt
    · exact le_refl _
    · have hsorted := List.sorted_insertionSort dateGe gp
      rw [hmt] at hsorted
      exact List.rel_of_sorted_cons hsorted b hbt
  refine ⟨m, ?_, hm_bs, hm_p, hm_max⟩
  have hnd : (restoreKeysList bs).Nodup := by
    unfold restoreKeysList
    exact nodup_foldl_insert BackupInfo.Path bs [] List.nodup_nil
  have hpk : p ∈ restoreKeysList bs := by
    unfold restoreKeysList
    rw [mem_foldl_insert BackupInfo.Path]
    exact Or.inr ⟨b0, hb0, hb0p⟩
  have hsel : selectBackups bs opts
      = ((restoreKeysList bs).map (fun k =>
          if opts.Latest ∨ opts.Date = [] then
            ((bs.filter (fun b => decide (b.Path = k))).insertionSort dateGe).take 1
          else (bs.filter (fun b => decide (b.Path = k))).insertionSort dateGe)).flatten := by
    unfold selectBackups
    rw [hfil]
    unfold selectFromGroups restoreGroups
    rw [if_neg hbs, List.map_map]
    rfl
  rw [hsel, List.filter_flatten, List.map_map]
  have hzero : ∀ k ∈ restoreKeysList bs, k ≠ p →
      ((fun k => if opts.Latest ∨ opts.Date = [] then
          ((bs.filter (fun b => decide (b.Path = k))).insertionSort dateGe).take 1
        else (bs.filter (fun b => decide (b.Path = k))).insertionSort dateGe) k).filter
          (fun b => decide (b.Path = p)) = [] := by
    intro k hk hkp
    simp only [if_pos (Or.inr hdate)]
    rw [List.filter_eq_nil_iff]
    intro a ha
    have hagrp : a ∈ bs.filter (fun b => decide (b.Path = k)) :=
      (List.mem_insertionSort dateGe).mp (List.take_subset _ _ ha)
    have hap : a.Path = k := of_decide_eq_true (List.mem_filter.mp hagrp).2
    simp [hap, hkp]
  have hmain := flatten_map_single p
    (fun k => ((fun k => if opts.Latest ∨ opts.Date = [] then
        ((bs.filter (fun b => decide (b.Path = k))).insertionSort dateGe).take 1
      else (bs.filter (fun b => decide (b.Path = k))).insertionSort dateGe) k).filter
        (fun b => decide (b.Path = p)))
    (restoreKeysList bs) hnd hpk hzero
  refine hmain.trans ?_
  simp only [if_pos (Or.inr hdate)]
  rw [← hgp, hmt]
  simp [hm_p]

/-- Claim C7 witness: a concrete two-record path with the latest option set. -/
theorem c7_witness :
    ∃ m, (selectBackups [demoOld, demoNew] ⟨[], true⟩).filter
        (fun b => decide (b.Path = "data".data)) = [m] ∧
      m ∈ [demoOld, demoNew] ∧ m.Path = "data".data ∧
      ∀ b ∈ [demoOld, demoNew], b.Path = "data".data → b.Date ≤ m.Date :=
  c7_latest_selection [demoOld, demoNew] ⟨[], true⟩ "data".data (by decide)
    ⟨demoOld, by decide, by decide⟩

/-- Claim C8: include-filter rule. For every base, entry whose relative path is R, and
nonempty include-term set, shouldInclude accepts exactly when R is the dot or some
include folder is a string prefix of R or conversely; in particular, for root /data with
include folder uploads, the file under uploads is included, a file under another folder
is excluded, and the root itself is included. -/
theorem c8_include_filter_rule (base path R : Str) (includeFolders : List Str)
    (hrel : goFilepathRel base path = some R) (hne : includeFolders ≠ []) :
    (shouldInclude path base includeFolders = true ↔
      R = ['.'] ∨ ∃ f ∈ includeFolders, f <+: R ∨ R <+: f) ∧
    shouldInclude "/data/uploads/x.png".data "/data".data ["uploads".data] = true ∧
    shouldInclude "/data/other/y.png".data "/data".data ["uploads".data] = false ∧
    shouldInclude "/data".data "/data".data ["uploads".data] = true := by
  refine ⟨?_, by decide, by decide, by decide⟩
  unfold shouldInclude
  rw [hrel]
  dsimp only
  by_cases hdot : R = ['.']
  · simp [hdot]
  · rw [if_neg hdot]
    constructor
    · intro h
      obtain ⟨f, hf, hor⟩ := List.any_eq_true.mp h
      refine Or.inr ⟨f, hf, ?_⟩
      rw [Bool.or_eq_true] at hor
      rcases hor with h1 | h1
      · exact Or.inl (isPrefixOfIff.mp h1)
      · exact Or.inr (isPrefixOfIff.mp h1)
    · rintro (h | ⟨f, hf, hor⟩)
      · exact absurd h hdot
      · apply List.any_eq_true.mpr
        refine ⟨f, hf, ?_⟩
        rw [Bool.or_eq_true]
        rcases hor with h1 | h1
        · exact Or.inl (isPrefixOfIff.mpr h1)
        · exact Or.inr (isPrefixOfIff.mpr h1)

/-- Claim C8 witness: the rule applied at root /data with the uploads include folder. -/
theorem c8_witness :
    shouldInclude "/data/uploads/x.png".data "/data".data ["uploads".data] = true :=
  (c8_include_filter_rule "/data".data "/data/uploads/x.png".data "uploads/x.png".data
    ["uploads".data] (by decide) (by decide)).2.1

/-- Claim C9: minimum-size rejection. Whenever the archive was created and its size is
below the configured minimum, backupPath returns an item-level result carrying the
below-minimum error and performs no upload to the object store. -/
theorem c9_min_size_rejection (minSize : Int) (env : BackupPathEnv)
    (h1 : env.statOk = true) (h2 : env.mkdirOk = true) (h3 : env.tempOk = true)
    (h4 : env.archiveOk = true) (h5 : env.sizeStatOk = true)
    (hpos : 0 ≤ env.archiveSize) (hlt : env.archiveSize < minSize) :
    (backupPath minSize env).1.Err = some BackupErr.belowMinSize ∧
      (backupPath minSize env).2 = false := by
  have hmin : 0 < minSize := lt_of_le_of_lt hpos hlt
  unfold backupPath
  rw [if_neg (by simp [h1]), if_neg (by simp [h2]), if_neg (by simp [h3]),
    if_neg (by simp [h4]), if_neg (by simp [h5]), if_pos ⟨hmin, hlt⟩]
  exact ⟨rfl, rfl⟩

/-- Claim C9 witness: a 40-byte archive against a 100-byte minimum. -/
theorem c9_witness :
    (backupPath 100 ⟨true, true, true, true, true, 40, true, true⟩).1.Err
        = some BackupErr.belowMinSize ∧
      (backupPath 100 ⟨true, true, true, true, true, 40, true, true⟩).2 = false :=
  c9_min_size_rejection 100 ⟨true, true, true, true, true, 40, true, true⟩ rfl rfl rfl rfl
    rfl (by decide) (by decide)
